import Mathlib

/-!
# Verification of the portfolio-optimization tutorial notebook

This file embeds the code of
`legacy_tutorials/aqua/finance/optimization/portfolio_optimization.ipynb`
in Lean 4 and proves properties about it.

Two complementary embeddings are used:

* a **shallow embedding** of the notebook's own helper functions
  (`index_to_selection`, `print_result`) and of the library functions they
  depend on (`portfolio_value`, `sample_most_likely`, the diagonal Ising
  Hamiltonian produced by `portfolio.get_operator`, and the exact
  eigensolver).  The library functions live in the external `qiskit`
  package, not in this repository, so they are modelled from the
  specification text; each such definition carries a doc comment saying so.
  Real and complex scalars are modelled by rationals (a state-vector entry
  is a pair `(re, im) : ℚ × ℚ`).

* a **deep embedding** of the notebook's statement list as a small Python
  AST, used to prove structural facts: which library calls appear, with
  which arguments, and that the notebook contains no exception handling.
-/

namespace PortfolioNB

/-! ## Shallow embedding: `index_to_selection` -/

/-- The character Python prints for one binary digit. -/
def binChar (d : ℕ) : Char := if d = 1 then '1' else '0'

/-- Model of Python `"{0:b}".format i` (notebook cell `In[5]`): the binary
representation of `i`, most significant digit first, `"0"` for `i = 0`.
`Nat.digits 2 i` is the little-endian digit list, so we reverse it. -/
def pyFormatB (i : ℕ) : List Char :=
  if i = 0 then ['0'] else ((Nat.digits 2 i).map binChar).reverse

/-- Model of Python `str.rjust n` with the default fill character `' '`:
pad on the left to length `n`, returning the string unchanged when it is
already at least that long. -/
def rjust (l : List Char) (n : ℕ) : List Char :=
  List.replicate (n - l.length) ' ' ++ l

/-- Shallow embedding of the notebook's `index_to_selection` function:

```python
def index_to_selection(i, num_assets):
    s = "{0:b}".format(i).rjust(num_assets)
    x = np.array([1 if s[i]=='1' else 0 for i in reversed(range(num_assets))])
    return x
```

The comprehension indexes `s` at `num_assets-1, ..., 0`; Python raises
`IndexError` on an out-of-range index, which the embedding reflects by
returning `none`. -/
def index_to_selection (i num_assets : ℕ) : Option (List ℕ) :=
  let s := rjust (pyFormatB i) num_assets
  ((List.range num_assets).reverse).mapM
    (fun k => (s[k]?).map (fun c => if c = '1' then 1 else 0))

/-- The closed form of the selection vector: entry `j` is bit `j` of `i`
(little-endian). -/
def selectionOf (i n : ℕ) : List ℕ :=
  (List.range n).map (fun j => i / 2 ^ j % 2)

/-- Little-endian binary value of a digit list. -/
def binVal : List ℕ → ℕ
  | [] => 0
  | d :: t => d + 2 * binVal t

/-! ## Shallow embedding: `portfolio_value` and the library pieces

The notebook delegates to `qiskit` for `portfolio.portfolio_value`,
`portfolio.get_operator`, `sample_most_likely` and the algorithms.  That
library is not part of this repository, so these are modelled from the
specification text and the problem statement printed in the notebook. -/

/-- Modelled from the spec: `qiskit.finance.ising.portfolio.portfolio_value`
is not part of this repository.  Per the notebook's problem statement the
objective of selection `x` is `q xᵀ Σ x − μᵀ x` with the budget constraint
`1ᵀ x = B` enforced through the scaled penalty term `penalty (1ᵀx − B)²`. -/
def portfolio_value (x : List ℕ) (mu : List ℚ) (sigma : List (List ℚ))
    (q : ℚ) (budget : ℕ) (penalty : ℚ) : ℚ :=
  q * ∑ i ∈ Finset.range x.length, ∑ j ∈ Finset.range x.length,
        (x.getD i 0 : ℚ) * ((sigma.getD i []).getD j 0) * (x.getD j 0 : ℚ)
    - ∑ i ∈ Finset.range x.length, mu.getD i 0 * (x.getD i 0 : ℚ)
    + penalty * ((∑ i ∈ Finset.range x.length, (x.getD i 0 : ℚ)) - budget) ^ 2

/-- `probabilities = np.abs(result['eigvecs'][0])**2`: the squared modulus
of each complex amplitude, with an amplitude modelled as a pair
`(re, im) : ℚ × ℚ`. -/
def probabilities (v : List (ℚ × ℚ)) : List ℚ :=
  v.map (fun z => z.1 ^ 2 + z.2 ^ 2)

/-- Model of `np.argsort`: the indices `0, ..., p.length - 1` sorted by
non-decreasing value `p[i]`.  (`np.argsort` uses an unstable quicksort; any
sort that is a permutation of the indices and non-decreasing on values is a
faithful model of the properties the notebook relies on.) -/
def argsort (p : List ℚ) : List ℕ :=
  (List.range p.length).mergeSort (fun a b => decide (p.getD a 0 ≤ p.getD b 0))

/-- Modelled from the spec:
`qiskit.optimization.ising.common.sample_most_likely` is not part of this
repository.  On a state vector it selects the basis state of largest
probability and returns it as the binary selection vector (little-endian,
matching the encoding `index_to_selection` decodes). -/
def sample_most_likely (v : List (ℚ × ℚ)) : List ℕ :=
  let p := probabilities v
  let imax := ((List.range v.length).argmax (fun j => p.getD j 0)).getD 0
  selectionOf imax (Nat.log2 v.length)

/-- Modelled from the spec: `portfolio.get_operator` "encod[es] a
combinatorial optimization problem as a quantum-mechanical energy operator
whose lowest-energy state is the optimal solution" — a diagonal Ising
Hamiltonian whose energy at basis state `i` is the objective of the
selection encoded by `i`, up to the constant `offset` returned alongside
the operator. -/
def energyOf (mu : List ℚ) (sigma : List (List ℚ)) (q : ℚ) (budget : ℕ)
    (penalty : ℚ) (offset : ℚ) (n : ℕ) (i : ℕ) : ℚ :=
  portfolio_value (selectionOf i n) mu sigma q budget penalty - offset

/-- Modelled from the spec: `ExactEigensolver(qubitOp, k=1)` (classical
exact diagonalization) finds the index of the lowest diagonal energy. -/
def groundIndex (mu : List ℚ) (sigma : List (List ℚ)) (q : ℚ) (budget : ℕ)
    (penalty : ℚ) (offset : ℚ) (n : ℕ) : ℕ :=
  ((List.range (2 ^ n)).argmin (energyOf mu sigma q budget penalty offset n)).getD 0

/-- Modelled from the spec: the lowest-energy eigenvector of a diagonal
Hamiltonian is the corresponding computational basis vector (`eigvecs[0]`
of the `ExactEigensolver` result). -/
def exactGroundVec (mu : List ℚ) (sigma : List (List ℚ)) (q : ℚ) (budget : ℕ)
    (penalty : ℚ) (offset : ℚ) (n : ℕ) : List (ℚ × ℚ) :=
  (List.range (2 ^ n)).map
    (fun j => if j = groundIndex mu sigma q budget penalty offset n
      then ((1 : ℚ), (0 : ℚ)) else ((0 : ℚ), (0 : ℚ)))

/-! ## Shallow embedding: the output of `print_result` -/

/-- Model of Python `int(...)` applied to a rational: truncation toward
zero. -/
def pyInt (x : ℚ) : ℤ :=
  if 0 ≤ x then ⌊x⌋ else -⌊-x⌋

/-- Half-to-even rounding to an integer, the rounding used by Python's
`'%.4f'` / `'{:.4f}'` formatting (reals modelled by rationals). -/
def roundHalfEven (x : ℚ) : ℤ :=
  if x - ⌊x⌋ = 1 / 2 then (if ⌊x⌋ % 2 = 0 then ⌊x⌋ else ⌊x⌋ + 1) else round x

/-- Left-pad the decimal representation of `k` with zeros to 4 digits. -/
def pad4 (k : ℕ) : String :=
  let t := toString k
  String.mk (List.replicate (4 - t.length) '0') ++ t

/-- Model of `'{:.4f}'.format x` / `'%.4f' % x`. -/
def format4 (x : ℚ) : String :=
  let m := roundHalfEven (x * 10000)
  let sign := if m < 0 ∨ (m = 0 ∧ x < 0) then "-" else ""
  sign ++ toString (m.natAbs / 10000) ++ "." ++ pad4 (m.natAbs % 10000)

/-- Rendering of a numpy integer vector, e.g. `[1 0 1 0]`. -/
def npVecRepr (x : List ℕ) : String :=
  "[" ++ String.intercalate " " (x.map toString) ++ "]"

/-- Model of `'%10s' % s`: right-justify to width 10. -/
def rjustStr (s : String) (w : ℕ) : String :=
  String.mk (List.replicate (w - s.length) ' ') ++ s

/-- One row of the "Full result" table:
`print('%10s\t%.4f\t\t%.4f' % (x, value, probability))`.  `none` models an
`IndexError` escaping from `index_to_selection`. -/
def fullResultRow (mu : List ℚ) (sigma : List (List ℚ)) (q : ℚ) (budget : ℕ)
    (penalty : ℚ) (num_assets : ℕ) (p : List ℚ) (i : ℕ) : Option String :=
  (index_to_selection i num_assets).map (fun x =>
    rjustStr (npVecRepr x) 10 ++ "\t" ++
      format4 (portfolio_value x mu sigma q budget penalty) ++ "\t\t" ++
      format4 (p.getD i 0))

/-- Shallow embedding of the notebook's `print_result`, as the list of
lines it prints (a `print` of a string containing `'\n'` contributes two
lines).  The globals `mu, sigma, q, budget, penalty, num_assets` are
parameters, `eigvec0` is `result['eigvecs'][0]`. -/
def print_result_lines (mu : List ℚ) (sigma : List (List ℚ)) (q : ℚ)
    (budget : ℕ) (penalty : ℚ) (num_assets : ℕ) (eigvec0 : List (ℚ × ℚ)) :
    Option (List String) :=
  let selection := sample_most_likely eigvec0
  let value := portfolio_value selection mu sigma q budget penalty
  let p := probabilities eigvec0
  let i_sorted := (argsort p).reverse
  (i_sorted.mapM (fullResultRow mu sigma q budget penalty num_assets p)).map
    (fun rows =>
      ("Optimal: selection " ++ npVecRepr selection ++ ", value " ++ format4 value)
        :: ""
        :: "----------------- Full result ---------------------"
        :: "selection\tvalue\t\tprobability"
        :: "---------------------------------------------------"
        :: rows)

/-! ## Deep embedding: the notebook's code cells as a Python AST

Used for the structural claims: which library calls the notebook makes,
with which arguments, and that it installs no exception handler. -/

/-- Python expressions, at the granularity the notebook needs. -/
inductive PyExpr : Type where
  | pyvar : String → PyExpr
  | intL : Int → PyExpr
  | ratL : ℚ → PyExpr
  | strL : String → PyExpr
  | call : String → List PyExpr → PyExpr
  | meth : PyExpr → String → List PyExpr → PyExpr
  | kw : String → PyExpr → PyExpr
  | binApp : String → PyExpr → PyExpr → PyExpr
  | attrGet : PyExpr → String → PyExpr
  | subscr : PyExpr → PyExpr → PyExpr
  | cond : PyExpr → PyExpr → PyExpr → PyExpr
  | listC : PyExpr → String → PyExpr → PyExpr
  | tupleL : List PyExpr → PyExpr

/-- Python statements, at the granularity the notebook needs.  `tryEx` is
part of the language so that "the notebook contains no exception handler"
is a statement about the notebook, not about the language. -/
inductive PyStmt : Type where
  | impFrom : String → List String → PyStmt
  | impAs : String → String → PyStmt
  | assign : String → PyExpr → PyStmt
  | tupleAssign : List String → PyExpr → PyStmt
  | attrAssign : String → String → PyExpr → PyStmt
  | exprS : PyExpr → PyStmt
  | funcDef : String → List String → List PyStmt → PyStmt
  | forIn : String → PyExpr → List PyStmt → PyStmt
  | tryEx : List PyStmt → List PyStmt → PyStmt
  | ret : PyExpr → PyStmt
  | magic : String → PyStmt

open PyExpr PyStmt in
/-- The notebook's code cells, in execution order (cells `In[1]`–`In[8]`
of `portfolio_optimization.ipynb`; the empty trailing cell is omitted). -/
def notebook : List PyStmt := [
  -- cell In[1]: imports
  impFrom "qiskit" ["BasicAer"],
  impFrom "qiskit.aqua" ["QuantumInstance"],
  impFrom "qiskit.finance.ising" ["portfolio"],
  impFrom "qiskit.optimization.ising.common" ["sample_most_likely"],
  impFrom "qiskit.finance.data_providers" ["RandomDataProvider"],
  impFrom "qiskit.aqua.algorithms" ["VQE", "QAOA", "ExactEigensolver"],
  impFrom "qiskit.aqua.components.optimizers" ["COBYLA"],
  impFrom "qiskit.aqua.components.variational_forms" ["RY"],
  impAs "numpy" "np",
  impAs "datetime" "datetime",
  -- cell In[2]: account setup
  impFrom "qiskit" ["IBMQ"],
  assign "provider" (meth (pyvar "IBMQ") "load_account" []),
  -- cell In[3]: problem data from the random data provider
  assign "num_assets" (intL 4),
  assign "stocks"
    (listC (binApp "%" (strL "TICKER%s") (pyvar "i")) "i"
      (call "range" [pyvar "num_assets"])),
  assign "data"
    (call "RandomDataProvider"
      [kw "tickers" (pyvar "stocks"),
       kw "start" (meth (pyvar "datetime") "datetime" [intL 2016, intL 1, intL 1]),
       kw "end" (meth (pyvar "datetime") "datetime" [intL 2016, intL 1, intL 30])]),
  exprS (meth (pyvar "data") "run" []),
  assign "mu" (meth (pyvar "data") "get_period_return_mean_vector" []),
  assign "sigma" (meth (pyvar "data") "get_period_return_covariance_matrix" []),
  -- cell In[4]: problem parameters and the Hamiltonian operator
  assign "q" (ratL (1 / 2)),
  assign "budget" (call "int" [binApp "/" (pyvar "num_assets") (intL 2)]),
  assign "penalty" (pyvar "num_assets"),
  tupleAssign ["qubitOp", "offset"]
    (meth (pyvar "portfolio") "get_operator"
      [pyvar "mu", pyvar "sigma", pyvar "q", pyvar "budget", pyvar "penalty"]),
  -- cell In[5]: the two helper functions
  funcDef "index_to_selection" ["i", "num_assets"] [
    assign "s"
      (meth (meth (strL "\x7b0:b\x7d") "format" [pyvar "i"]) "rjust"
        [pyvar "num_assets"]),
    assign "x"
      (call "np.array"
        [listC
          (cond (binApp "==" (subscr (pyvar "s") (pyvar "i")) (strL "1"))
            (intL 1) (intL 0))
          "i" (call "reversed" [call "range" [pyvar "num_assets"]])]),
    ret (pyvar "x")],
  funcDef "print_result" ["result"] [
    assign "selection"
      (call "sample_most_likely"
        [subscr (subscr (pyvar "result") (strL "eigvecs")) (intL 0)]),
    assign "value"
      (meth (pyvar "portfolio") "portfolio_value"
        [pyvar "selection", pyvar "mu", pyvar "sigma", pyvar "q",
         pyvar "budget", pyvar "penalty"]),
    exprS (call "print"
      [meth (strL "Optimal: selection \x7b\x7d, value \x7b:.4f\x7d") "format"
        [pyvar "selection", pyvar "value"]]),
    assign "probabilities"
      (binApp "**"
        (call "np.abs" [subscr (subscr (pyvar "result") (strL "eigvecs")) (intL 0)])
        (intL 2)),
    assign "i_sorted" (call "reversed" [call "np.argsort" [pyvar "probabilities"]]),
    exprS (call "print" [strL "\n----------------- Full result ---------------------"]),
    exprS (call "print" [strL "selection\tvalue\t\tprobability"]),
    exprS (call "print" [strL "---------------------------------------------------"]),
    forIn "i" (pyvar "i_sorted") [
      assign "x" (call "index_to_selection" [pyvar "i", pyvar "num_assets"]),
      assign "value"
        (meth (pyvar "portfolio") "portfolio_value"
          [pyvar "x", pyvar "mu", pyvar "sigma", pyvar "q",
           pyvar "budget", pyvar "penalty"]),
      assign "probability" (subscr (pyvar "probabilities") (pyvar "i")),
      exprS (call "print"
        [binApp "%" (strL "%10s\t%.4f\t\t%.4f")
          (tupleL [pyvar "x", pyvar "value", pyvar "probability"])])]],
  -- cell In[6]: ExactEigensolver
  assign "exact_eigensolver" (call "ExactEigensolver" [pyvar "qubitOp", kw "k" (intL 1)]),
  assign "result" (meth (pyvar "exact_eigensolver") "run" []),
  exprS (call "print_result" [pyvar "result"]),
  -- cell In[7]: VQE
  assign "backend" (meth (pyvar "BasicAer") "get_backend" [strL "statevector_simulator"]),
  assign "seed" (intL 50),
  assign "cobyla" (call "COBYLA" []),
  exprS (meth (pyvar "cobyla") "set_options" [kw "maxiter" (intL 500)]),
  assign "ry"
    (call "RY"
      [attrGet (pyvar "qubitOp") "num_qubits", kw "depth" (intL 3),
       kw "entanglement" (strL "full")]),
  assign "vqe" (call "VQE" [pyvar "qubitOp", pyvar "ry", pyvar "cobyla"]),
  attrAssign "vqe" "random_seed" (pyvar "seed"),
  assign "quantum_instance"
    (call "QuantumInstance"
      [kw "backend" (pyvar "backend"), kw "seed_simulator" (pyvar "seed"),
       kw "seed_transpiler" (pyvar "seed")]),
  assign "result" (meth (pyvar "vqe") "run" [pyvar "quantum_instance"]),
  exprS (call "print_result" [pyvar "result"]),
  -- cell In[8]: QAOA
  assign "backend" (meth (pyvar "BasicAer") "get_backend" [strL "statevector_simulator"]),
  assign "seed" (intL 50),
  assign "cobyla" (call "COBYLA" []),
  exprS (meth (pyvar "cobyla") "set_options" [kw "maxiter" (intL 250)]),
  assign "qaoa" (call "QAOA" [pyvar "qubitOp", pyvar "cobyla", intL 3]),
  attrAssign "qaoa" "random_seed" (pyvar "seed"),
  assign "quantum_instance"
    (call "QuantumInstance"
      [kw "backend" (pyvar "backend"), kw "seed_simulator" (pyvar "seed"),
       kw "seed_transpiler" (pyvar "seed")]),
  assign "result" (meth (pyvar "qaoa") "run" [pyvar "quantum_instance"]),
  exprS (call "print_result" [pyvar "result"]),
  -- final cell: version table
  impAs "qiskit.tools.jupyter" "qiskit.tools.jupyter",
  magic "qiskit_version_table",
  magic "qiskit_copyright"]

/-! ### Syntactic traversals over the AST -/

mutual

/-- Every subexpression of an expression (the expression itself included). -/
def subExprs : PyExpr → List PyExpr
  | .pyvar v => [.pyvar v]
  | .intL n => [.intL n]
  | .ratL x => [.ratL x]
  | .strL s => [.strL s]
  | .call f args => .call f args :: subExprsList args
  | .meth r m args => .meth r m args :: (subExprs r ++ subExprsList args)
  | .kw name v => .kw name v :: subExprs v
  | .binApp op a b => .binApp op a b :: (subExprs a ++ subExprs b)
  | .attrGet r a => .attrGet r a :: subExprs r
  | .subscr a b => .subscr a b :: (subExprs a ++ subExprs b)
  | .cond c t e => .cond c t e :: (subExprs c ++ subExprs t ++ subExprs e)
  | .listC body v it => .listC body v it :: (subExprs body ++ subExprs it)
  | .tupleL xs => .tupleL xs :: subExprsList xs

def subExprsList : List PyExpr → List PyExpr
  | [] => []
  | e :: es => subExprs e ++ subExprsList es

end

mutual

/-- Every expression occurring in a statement, recursively through
function bodies, loop bodies and handler bodies. -/
def stmtExprs : PyStmt → List PyExpr
  | .impFrom _ _ => []
  | .impAs _ _ => []
  | .assign _ e => subExprs e
  | .tupleAssign _ e => subExprs e
  | .attrAssign _ _ e => subExprs e
  | .exprS e => subExprs e
  | .funcDef _ _ body => stmtExprsList body
  | .forIn _ it body => subExprs it ++ stmtExprsList body
  | .tryEx body handler => stmtExprsList body ++ stmtExprsList handler
  | .ret e => subExprs e
  | .magic _ => []

def stmtExprsList : List PyStmt → List PyExpr
  | [] => []
  | s :: ss => stmtExprs s ++ stmtExprsList ss

end

/-- The argument lists of every call of the plain function `f` occurring in
the given expressions. -/
def callArgsIn (f : String) (es : List PyExpr) : List (List PyExpr) :=
  es.filterMap (fun e =>
    match e with
    | .call g args => if g = f then some args else none
    | _ => none)

/-- The argument lists of every method call `obj.m(...)` (on the named
variable `obj`) occurring in the given expressions. -/
def methArgsIn (obj m : String) (es : List PyExpr) : List (List PyExpr) :=
  es.filterMap (fun e =>
    match e with
    | .meth (.pyvar o) m' args => if o = obj ∧ m' = m then some args else none
    | _ => none)

mutual

/-- Every right-hand side assigned to the variable `v`, recursively through
function bodies, loop bodies and handler bodies (plain and tuple-unpacking
assignments). -/
def stmtAssignsTo (v : String) : PyStmt → List PyExpr
  | .assign w e => if w = v then [e] else []
  | .tupleAssign ws e => if v ∈ ws then [e] else []
  | .funcDef _ _ body => stmtAssignsToList v body
  | .forIn _ _ body => stmtAssignsToList v body
  | .tryEx body handler => stmtAssignsToList v body ++ stmtAssignsToList v handler
  | _ => []

def stmtAssignsToList (v : String) : List PyStmt → List PyExpr
  | [] => []
  | s :: ss => stmtAssignsTo v s ++ stmtAssignsToList v ss

end

/-- The name lists of the top-level `from mod import names` statements for
the given module. -/
def importedFrom (mod : String) (prog : List PyStmt) : List (List String) :=
  prog.filterMap (fun s =>
    match s with
    | .impFrom m names => if m = mod then some names else none
    | _ => none)

mutual

/-- Does a statement contain a `try`/`except` anywhere (recursively)? -/
def stmtHasTry : PyStmt → Bool
  | .tryEx _ _ => true
  | .funcDef _ _ body => stmtsHaveTry body
  | .forIn _ _ body => stmtsHaveTry body
  | _ => false

def stmtsHaveTry : List PyStmt → Bool
  | [] => false
  | s :: ss => stmtHasTry s || stmtsHaveTry ss

end

/-! ### An exception-aware semantics for the notebook script

Every piece of behaviour the notebook delegates to the wrapped library (or
to the Python runtime) is a call to an `Oracle`, which may raise.  The
notebook's own contribution is only the sequencing, so the semantics makes
the claim "errors propagate unchanged, no state is repaired" provable:
`Except`-bind stops at the first error, and only `tryEx` — which the
notebook never uses — can catch one. -/

/-- Runtime values: literals, plus opaque tagged library objects. -/
inductive PyVal : Type where
  | intV : Int → PyVal
  | ratV : ℚ → PyVal
  | strV : String → PyVal
  | obj : String → PyVal

/-- Variable environment of the top-level script. -/
abbrev PyEnv := List (String × PyVal)

/-- Interprets library calls, operators, magics, attribute access and
iteration; an oracle may raise an exception (`Except.error`). -/
abbrev Oracle := String → List PyVal → Except String PyVal

mutual

/-- Evaluate an expression; every effect is delegated to the oracle, and
any raised exception propagates. -/
def evalE (O : Oracle) (ρ : PyEnv) : PyExpr → Except String PyVal
  | .pyvar v =>
    match ρ.lookup v with
    | some x => .ok x
    | none => .error ("NameError: " ++ v)
  | .intL n => .ok (.intV n)
  | .ratL x => .ok (.ratV x)
  | .strL s => .ok (.strV s)
  | .call f args => do
    let vs ← evalArgs O ρ args
    O f vs
  | .meth r m args => do
    let rv ← evalE O ρ r
    let vs ← evalArgs O ρ args
    O ("method:" ++ m) (rv :: vs)
  | .kw _ v => evalE O ρ v
  | .binApp op a b => do
    let av ← evalE O ρ a
    let bv ← evalE O ρ b
    O ("op:" ++ op) [av, bv]
  | .attrGet r a => do
    let rv ← evalE O ρ r
    O ("attr:" ++ a) [rv]
  | .subscr a b => do
    let av ← evalE O ρ a
    let bv ← evalE O ρ b
    O "subscript" [av, bv]
  | .cond c t e => do
    let cv ← evalE O ρ c
    let tv ← evalE O ρ t
    let ev ← evalE O ρ e
    O "ifexp" [cv, tv, ev]
  | .listC _ _ it => do
    let itv ← evalE O ρ it
    O "listcomp" [itv]
  | .tupleL xs => do
    let vs ← evalArgs O ρ xs
    O "tuple" vs

def evalArgs (O : Oracle) (ρ : PyEnv) : List PyExpr → Except String (List PyVal)
  | [] => .ok []
  | e :: es => do
    let v ← evalE O ρ e
    let vs ← evalArgs O ρ es
    .ok (v :: vs)

end

mutual

/-- Run one statement.  Only `tryEx` can recover from an error. -/
def runS (O : Oracle) (ρ : PyEnv) : PyStmt → Except String PyEnv
  | .impFrom mod names =>
    .ok ((names.map (fun nm => (nm, PyVal.obj (mod ++ "." ++ nm)))) ++ ρ)
  | .impAs mod al => .ok ((al, PyVal.obj mod) :: ρ)
  | .assign v e => do
    let x ← evalE O ρ e
    .ok ((v, x) :: ρ)
  | .tupleAssign vs e => do
    let _ ← evalE O ρ e
    .ok ((vs.map (fun nm => (nm, PyVal.obj ("unpacked:" ++ nm)))) ++ ρ)
  | .attrAssign o a e => do
    let ov ← evalE O ρ (.pyvar o)
    let v ← evalE O ρ e
    let _ ← O ("setattr:" ++ a) [ov, v]
    .ok ρ
  | .exprS e => do
    let _ ← evalE O ρ e
    .ok ρ
  | .funcDef f _ _ => .ok ((f, PyVal.obj ("function:" ++ f)) :: ρ)
  | .forIn _ it _ => do
    let itv ← evalE O ρ it
    let _ ← O "forloop" [itv]
    .ok ρ
  | .tryEx body handler =>
    match runL O ρ body with
    | .ok ρ' => .ok ρ'
    | .error _ => runL O ρ handler
  | .ret e => do
    let _ ← evalE O ρ e
    .ok ρ
  | .magic s => do
    let _ ← O ("magic:" ++ s) []
    .ok ρ

/-- Run a statement list in sequence; the first error aborts the rest. -/
def runL (O : Oracle) (ρ : PyEnv) : List PyStmt → Except String PyEnv
  | [] => .ok ρ
  | s :: ss => do
    let ρ' ← runS O ρ s
    runL O ρ' ss

end

@[simp] theorem rjust_length (l : List Char) (n : ℕ) :
    (rjust l n).length = max l.length n := by
  simp [rjust]
  omega

theorem pyFormatB_length_le {i n : ℕ} (hn : 1 ≤ n) (hi : i < 2 ^ n) :
    (pyFormatB i).length ≤ n := by
  unfold pyFormatB
  by_cases h0 : i = 0
  · simp [h0]; omega
  · simp only [h0, if_false, List.length_reverse, List.length_map]
    rw [Nat.digits_len 2 i (by norm_num) h0]
    have : Nat.log 2 i < n := Nat.log_lt_of_lt_pow h0 hi
    omega

/-- If every index drawn from `L` is in range for `s`, the `mapM` in
`index_to_selection` succeeds and computes the corresponding `map`. -/
theorem mapM_lookup_eq_some (s : List Char) (f : Char → ℕ) :
    ∀ L : List ℕ, (∀ k ∈ L, k < s.length) →
      (L.mapM (fun k => (s[k]?).map f)) = some (L.map (fun k => f (s.getD k ' ')))
  | [], _ => rfl
  | k :: L, h => by
    have hk : k < s.length := h k (List.mem_cons_self k L)
    have hL : ∀ k ∈ L, k < s.length := fun k hkL => h k (List.mem_cons_of_mem _ hkL)
    have ih := mapM_lookup_eq_some s f L hL
    simp only [List.mapM_cons, ih, List.getElem?_eq_getElem hk, Option.map_some,
      List.map_cons, List.getD_eq_getElem?_getD, List.getElem?_eq_getElem hk]
    rfl

/-- Reading a reversed list at the mirrored position. -/
theorem getD_reverse_idx {α : Type} (l : List α) (d : α) {j : ℕ} (hj : j < l.length) :
    l.reverse.getD (l.length - 1 - j) d = l.getD j d := by
  have h1 : l.length - 1 - j < l.length := by omega
  rw [List.getD_eq_getElem?_getD, List.getD_eq_getElem?_getD,
    List.getElem?_reverse (by simpa using h1)]
  congr 2
  omega

/-- `index_to_selection` never hits an out-of-range index: it always
returns `some` list, computed entrywise from the padded string. -/
theorem index_to_selection_eq_map (i n : ℕ) :
    index_to_selection i n =
      some (((List.range n).reverse).map
        (fun k => if (rjust (pyFormatB i) n).getD k ' ' = '1' then 1 else 0)) := by
  unfold index_to_selection
  refine mapM_lookup_eq_some _ _ _ ?_
  intro k hk
  rw [List.mem_reverse, List.mem_range] at hk
  have : n ≤ (rjust (pyFormatB i) n).length := by
    rw [rjust_length]; omega
  omega

/-- Digit `j` of the base-2 expansion of `i` is `i / 2 ^ j % 2`. -/
theorem digits_getD (j : ℕ) : ∀ i : ℕ, (Nat.digits 2 i).getD j 0 = i / 2 ^ j % 2 := by
  induction j with
  | zero =>
    intro i
    rcases Nat.eq_zero_or_pos i with h0 | h0
    · simp [h0]
    · rw [Nat.digits_def' (by norm_num : (1:ℕ) < 2) h0]
      simp
  | succ j ih =>
    intro i
    rcases Nat.eq_zero_or_pos i with h0 | h0
    · simp [h0]
    · rw [Nat.digits_def' (by norm_num : (1:ℕ) < 2) h0]
      simp only [List.getD_cons_succ, ih (i / 2)]
      rw [Nat.div_div_eq_div_mul, ← pow_succ']

theorem pyFormatB_ne_nil (i : ℕ) : (pyFormatB i).length ≠ 0 := by
  unfold pyFormatB
  by_cases h0 : i = 0
  · simp [h0]
  · simp only [h0, if_false, List.length_reverse, List.length_map]
    simp [Nat.digits_len 2 i (by norm_num) h0]

/-- Every natural is smaller than `2` to the length of its printed binary
form. -/
theorem lt_two_pow_pyFormatB_length (i : ℕ) : i < 2 ^ (pyFormatB i).length := by
  unfold pyFormatB
  by_cases h0 : i = 0
  · simp [h0]
  · simp only [h0, if_false, List.length_reverse, List.length_map]
    rw [Nat.digits_len 2 i (by norm_num) h0]
    exact Nat.lt_pow_succ_log_self (by norm_num) i

/-- Character extraction: for `i < 2 ^ n` and `j < n`, reading the padded
binary string at position `n - 1 - j` and testing for `'1'` yields bit `j`
of `i`. -/
theorem getD_rjust_bit {i n j : ℕ} (hj : j < n) (hi : i < 2 ^ n) :
    (if (rjust (pyFormatB i) n).getD (n - 1 - j) ' ' = '1' then 1 else 0) =
      i / 2 ^ j % 2 := by
  have hn : 1 ≤ n := by omega
  by_cases h0 : i = 0
  · -- `t = ['0']`: every read character is `'0'` or a space, and all bits are `0`
    subst h0
    have ht : pyFormatB 0 = ['0'] := by simp [pyFormatB]
    rw [ht, rjust]
    simp only [List.length_singleton, Nat.zero_div, Nat.zero_mod]
    rcases Nat.eq_zero_or_pos j with hj0 | hj0
    · subst hj0
      suffices h : (List.replicate (n - 1) ' ' ++ ['0']).getD (n - 1 - 0) ' ' = '0' by
        simp [h]
      rw [List.getD_append_right _ _ _ _ (by simp only [List.length_replicate]; omega)]
      simp only [List.length_replicate]
      have : n - 1 - 0 - (n - 1) = 0 := by omega
      rw [this]
      rfl
    · suffices h : (List.replicate (n - 1) ' ' ++ ['0']).getD (n - 1 - j) ' ' = ' ' by
        simp only [h]
        decide
      have hpad : n - 1 - j < (List.replicate (n - 1) ' ').length := by
        simp only [List.length_replicate]; omega
      rw [List.getD_append _ _ _ _ hpad, List.getD_eq_getElem _ _ hpad,
        List.getElem_replicate]
  · have ht : pyFormatB i = ((Nat.digits 2 i).map binChar).reverse := by
      simp [pyFormatB, h0]
    have hmlen : (pyFormatB i).length = (Nat.digits 2 i).length := by simp [ht]
    have hm1 : 1 ≤ (Nat.digits 2 i).length := by
      have := pyFormatB_ne_nil i
      omega
    have hmn : (Nat.digits 2 i).length ≤ n := by
      have := pyFormatB_length_le hn hi
      omega
    rcases Nat.lt_or_ge j (Nat.digits 2 i).length with hjm | hjm
    · -- the position falls inside the binary digits
      rw [rjust, List.getD_append_right _ _ _ _
        (by simp only [List.length_replicate, hmlen]; omega)]
      have hidx : n - 1 - j - (List.replicate (n - (pyFormatB i).length) ' ').length =
          (Nat.digits 2 i).length - 1 - j := by
        simp only [List.length_replicate, hmlen]; omega
      rw [hidx]
      have hchar : (pyFormatB i).getD ((Nat.digits 2 i).length - 1 - j) ' '
          = binChar ((Nat.digits 2 i).getD j 0) := by
        rw [ht]
        have hlen2 : (Nat.digits 2 i).length = ((Nat.digits 2 i).map binChar).length := by
          simp
        rw [hlen2,
          getD_reverse_idx ((Nat.digits 2 i).map binChar) ' ' (by simpa using hjm),
          List.getD_eq_getElem?_getD, List.getElem?_map,
          List.getElem?_eq_getElem hjm, List.getD_eq_getElem _ _ hjm]
        rfl
      rw [hchar]
      have hdlt : (Nat.digits 2 i).getD j 0 < 2 := by
        rw [List.getD_eq_getElem _ _ hjm]
        exact Nat.digits_lt_base (by norm_num) (List.getElem_mem _)
      rw [← digits_getD j i]
      revert hdlt
      generalize (Nat.digits 2 i).getD j 0 = d
      intro hdlt
      have hcase : d = 0 ∨ d = 1 := by omega
      rcases hcase with rfl | rfl <;> simp [binChar]
    · -- the position falls in the space padding, and bit `j` of `i` is `0`
      have hi' : i < 2 ^ j := lt_of_lt_of_le (lt_two_pow_pyFormatB_length i)
        (Nat.pow_le_pow_right (by norm_num) (by omega))
      have hz : i / 2 ^ j = 0 := Nat.div_eq_of_lt hi'
      have hpad : n - 1 - j < (List.replicate (n - (pyFormatB i).length) ' ').length := by
        simp only [List.length_replicate, hmlen]; omega
      rw [rjust, List.getD_append _ _ _ _ hpad, List.getD_eq_getElem _ _ hpad,
        List.getElem_replicate]
      simp [hz]

theorem selectionOf_length (i n : ℕ) : (selectionOf i n).length = n := by
  simp [selectionOf]

theorem selectionOf_binary {i n : ℕ} : ∀ v ∈ selectionOf i n, v = 0 ∨ v = 1 := by
  intro v hv
  simp only [selectionOf, List.mem_map] at hv
  obtain ⟨j, _, rfl⟩ := hv
  omega

theorem selectionOf_getD {i n j : ℕ} (hj : j < n) :
    (selectionOf i n).getD j 0 = i / 2 ^ j % 2 := by
  have h : j < (selectionOf i n).length := by simpa [selectionOf_length] using hj
  rw [List.getD_eq_getElem _ _ h]
  simp [selectionOf]

/-- For in-range indices, `index_to_selection` returns exactly the
little-endian bit vector `selectionOf i n`. -/
theorem index_to_selection_eq_selectionOf {i n : ℕ} (hi : i < 2 ^ n) :
    index_to_selection i n = some (selectionOf i n) := by
  rw [index_to_selection_eq_map]
  congr 1
  refine List.ext_getElem (by simp [selectionOf]) ?_
  intro j h1 h2
  have hj : j < n := by simpa [selectionOf_length] using h2
  simp only [selectionOf, List.getElem_map, List.getElem_reverse, List.getElem_range,
    List.length_range]
  exact getD_rjust_bit hj hi

theorem binary_getD_le {x : List ℕ} (hx : ∀ v ∈ x, v = 0 ∨ v = 1) (j : ℕ) :
    x.getD j 0 ≤ 1 := by
  rcases Nat.lt_or_ge j x.length with hj | hj
  · rw [List.getD_eq_getElem _ _ hj]
    rcases hx _ (List.getElem_mem hj) with h | h <;> omega
  · rw [List.getD_eq_getElem?_getD, List.getElem?_eq_none hj]
    simp

/-- Partial binary sums recover `i` modulo `2 ^ n`. -/
theorem sum_bits_eq_mod (i : ℕ) : ∀ n : ℕ,
    ∑ j ∈ Finset.range n, i / 2 ^ j % 2 * 2 ^ j = i % 2 ^ n := by
  intro n
  induction n with
  | zero => simp [Nat.mod_one]
  | succ n ih =>
    rw [Finset.sum_range_succ, ih, Nat.mod_pow_succ]
    ring

/-! ### Inverse direction: encoding a binary vector as an index -/

theorem binVal_lt {x : List ℕ} (hx : ∀ v ∈ x, v = 0 ∨ v = 1) :
    binVal x < 2 ^ x.length := by
  induction x with
  | nil => simp [binVal]
  | cons d t ih =>
    have hd : d = 0 ∨ d = 1 := hx d (List.mem_cons_self d t)
    have ht : binVal t < 2 ^ t.length :=
      ih (fun v hv => hx v (List.mem_cons_of_mem d hv))
    simp only [binVal, List.length_cons, pow_succ]
    omega

theorem binVal_div_pow_mod {x : List ℕ} (hx : ∀ v ∈ x, v = 0 ∨ v = 1) :
    ∀ k : ℕ, binVal x / 2 ^ k % 2 = x.getD k 0 := by
  induction x with
  | nil => intro k; simp [binVal]
  | cons d t ih =>
    intro k
    have hd : d = 0 ∨ d = 1 := hx d (List.mem_cons_self d t)
    have ht : ∀ v ∈ t, v = 0 ∨ v = 1 := fun v hv => hx v (List.mem_cons_of_mem d hv)
    cases k with
    | zero =>
      simp only [binVal, pow_zero, Nat.div_one, List.getD_cons_zero]
      omega
    | succ k =>
      have hstep : binVal (d :: t) / 2 ^ (k + 1) = binVal t / 2 ^ k := by
        rw [pow_succ']
        rw [← Nat.div_div_eq_div_mul]
        congr 1
        simp only [binVal]
        omega
      rw [hstep, ih ht k, List.getD_cons_succ]

/-- Decoding the little-endian value of a binary vector reproduces the
vector. -/
theorem selectionOf_binVal {x : List ℕ} (hx : ∀ v ∈ x, v = 0 ∨ v = 1) :
    selectionOf (binVal x) x.length = x := by
  refine List.ext_getElem (by simp [selectionOf_length]) ?_
  intro j h1 h2
  have hj : j < x.length := h2
  simp only [selectionOf, List.getElem_map, List.getElem_range]
  rw [binVal_div_pow_mod hx j, List.getD_eq_getElem _ _ hj]

/-! ### The ground state of the modelled Hamiltonian -/

theorem groundIndex_spec (mu : List ℚ) (sigma : List (List ℚ)) (q : ℚ)
    (budget : ℕ) (penalty offset : ℚ) (n : ℕ) :
    (List.range (2 ^ n)).argmin (energyOf mu sigma q budget penalty offset n) =
      some (groundIndex mu sigma q budget penalty offset n) := by
  rcases h : (List.range (2 ^ n)).argmin (energyOf mu sigma q budget penalty offset n)
    with _ | m
  · exfalso
    have h0 := List.argmin_eq_none.mp h
    rw [List.range_eq_nil] at h0
    exact absurd h0 (Nat.pos_iff_ne_zero.mp (pow_pos (by norm_num : (0:ℕ) < 2) n))
  · simp [groundIndex, h]

theorem groundIndex_lt (mu : List ℚ) (sigma : List (List ℚ)) (q : ℚ)
    (budget : ℕ) (penalty offset : ℚ) (n : ℕ) :
    groundIndex mu sigma q budget penalty offset n < 2 ^ n := by
  have h := groundIndex_spec mu sigma q budget penalty offset n
  have hmem : groundIndex mu sigma q budget penalty offset n ∈ List.range (2 ^ n) :=
    List.argmin_mem (by rw [h]; exact Option.mem_def.mpr rfl)
  exact List.mem_range.mp hmem

theorem groundIndex_le (mu : List ℚ) (sigma : List (List ℚ)) (q : ℚ)
    (budget : ℕ) (penalty offset : ℚ) (n : ℕ) {i : ℕ} (hi : i < 2 ^ n) :
    energyOf mu sigma q budget penalty offset n
        (groundIndex mu sigma q budget penalty offset n) ≤
      energyOf mu sigma q budget penalty offset n i := by
  have h := groundIndex_spec mu sigma q budget penalty offset n
  exact List.le_of_mem_argmin (List.mem_range.mpr hi)
    (by rw [h]; exact Option.mem_def.mpr rfl)

theorem probabilities_exactGroundVec_getD (mu : List ℚ) (sigma : List (List ℚ))
    (q : ℚ) (budget : ℕ) (penalty offset : ℚ) (n : ℕ) {j : ℕ} (hj : j < 2 ^ n) :
    (probabilities (exactGroundVec mu sigma q budget penalty offset n)).getD j 0 =
      if j = groundIndex mu sigma q budget penalty offset n then 1 else 0 := by
  have hlen : (probabilities (exactGroundVec mu sigma q budget penalty offset n)).length
      = 2 ^ n := by
    simp [probabilities, exactGroundVec]
  rw [List.getD_eq_getElem _ _ (by omega : j < _)]
  simp only [probabilities, exactGroundVec, List.getElem_map, List.getElem_range]
  split_ifs <;> norm_num

/-- The most likely sample from the modelled ground state is the selection
encoded by the minimal-energy index. -/
theorem sample_most_likely_exactGroundVec (mu : List ℚ) (sigma : List (List ℚ))
    (q : ℚ) (budget : ℕ) (penalty offset : ℚ) (n : ℕ) :
    sample_most_likely (exactGroundVec mu sigma q budget penalty offset n) =
      selectionOf (groundIndex mu sigma q budget penalty offset n) n := by
  have hlen : (exactGroundVec mu sigma q budget penalty offset n).length = 2 ^ n := by
    simp [exactGroundVec]
  have hlog : Nat.log2 (exactGroundVec mu sigma q budget penalty offset n).length = n := by
    rw [hlen, Nat.log2_eq_log_two, Nat.log_pow (by norm_num)]
  have hi0 := groundIndex_lt mu sigma q budget penalty offset n
  -- the argmax over all indices is the ground index
  have hmax : ((List.range (exactGroundVec mu sigma q budget penalty offset n).length).argmax
      (fun j => (probabilities (exactGroundVec mu sigma q budget penalty offset n)).getD j 0)).getD 0
      = groundIndex mu sigma q budget penalty offset n := by
    rw [hlen]
    rcases h : (List.range (2 ^ n)).argmax
        (fun j => (probabilities (exactGroundVec mu sigma q budget penalty offset n)).getD j 0)
      with _ | m
    · exfalso
      have h0 := List.argmax_eq_none.mp h
      rw [List.range_eq_nil] at h0
      exact absurd h0 (Nat.pos_iff_ne_zero.mp (pow_pos (by norm_num : (0:ℕ) < 2) n))
    · have hmmem : m < 2 ^ n :=
        List.mem_range.mp (List.argmax_mem (by rw [h]; exact Option.mem_def.mpr rfl))
      have hle : (probabilities (exactGroundVec mu sigma q budget penalty offset n)).getD
          (groundIndex mu sigma q budget penalty offset n) 0 ≤
          (probabilities (exactGroundVec mu sigma q budget penalty offset n)).getD m 0 :=
        List.le_of_mem_argmax (List.mem_range.mpr hi0)
          (by rw [h]; exact Option.mem_def.mpr rfl)
      rw [probabilities_exactGroundVec_getD mu sigma q budget penalty offset n hi0,
        probabilities_exactGroundVec_getD mu sigma q budget penalty offset n hmmem] at hle
      simp only [if_pos rfl] at hle
      by_cases hm : m = groundIndex mu sigma q budget penalty offset n
      · simp [hm]
      · rw [if_neg hm] at hle
        norm_num at hle
  simp only [sample_most_likely]
  rw [hmax, hlog]

/-! ### Properties of `argsort` and the table rows -/

theorem probabilities_length (v : List (ℚ × ℚ)) :
    (probabilities v).length = v.length := by
  simp [probabilities]

theorem argsort_perm (p : List ℚ) : (argsort p).Perm (List.range p.length) :=
  List.mergeSort_perm _ _

/-- `argsort` lists indices in non-decreasing order of value. -/
theorem argsort_pairwise (p : List ℚ) :
    (argsort p).Pairwise (fun a b => p.getD a 0 ≤ p.getD b 0) := by
  have h := @List.sorted_mergeSort ℕ
    (fun a b : ℕ => decide (p.getD a 0 ≤ p.getD b 0))
    (fun a b c h1 h2 => by
      simp only [decide_eq_true_eq] at h1 h2 ⊢
      exact le_trans h1 h2)
    (fun a b => by
      simp only [Bool.or_eq_true, decide_eq_true_eq]
      exact le_total _ _)
    (List.range p.length)
  exact h.imp (fun h => by simpa using h)

theorem selectionOf_sum {i n : ℕ} (hi : i < 2 ^ n) :
    ∑ j ∈ Finset.range n, (selectionOf i n).getD j 0 * 2 ^ j = i := by
  have hcong : ∀ j ∈ Finset.range n,
      (selectionOf i n).getD j 0 * 2 ^ j = i / 2 ^ j % 2 * 2 ^ j := by
    intro j hj
    rw [selectionOf_getD (Finset.mem_range.mp hj)]
  rw [Finset.sum_congr rfl hcong, sum_bits_eq_mod, Nat.mod_eq_of_lt hi]

theorem selectionOf_inj {i i' n : ℕ} (hi : i < 2 ^ n) (hi' : i' < 2 ^ n)
    (h : selectionOf i n = selectionOf i' n) : i = i' := by
  rw [← selectionOf_sum hi, ← selectionOf_sum hi', h]

/-- If `f` returns `some (g a)` on every element, `mapM f` succeeds and
computes `map g`. -/
theorem mapM_eq_some_of {α β : Type} (f : α → Option β) (g : α → β) :
    ∀ L : List α, (∀ a ∈ L, f a = some (g a)) → L.mapM f = some (L.map g)
  | [], _ => rfl
  | a :: L, h => by
    have ih := mapM_eq_some_of f g L (fun b hb => h b (List.mem_cons_of_mem _ hb))
    simp only [List.mapM_cons, h a (List.mem_cons_self a L), ih, List.map_cons]
    rfl

/-! ## Claim C1 -/

/-- C1: the selection printed as "Optimal" for the `ExactEigensolver` run —
`sample_most_likely` applied to the lowest-energy eigenvector of the
Hamiltonian built by `portfolio.get_operator mu sigma q budget penalty`
(both modelled from the spec, the library being outside this repository) —
achieves the minimum of `portfolio_value x mu sigma q budget penalty` over
all `2 ^ num_assets` binary selection vectors `x`. -/
theorem claim_C1 (mu : List ℚ) (sigma : List (List ℚ)) (q : ℚ) (budget : ℕ)
    (penalty offset : ℚ) (num_assets : ℕ) (_hn : 1 ≤ num_assets)
    (x : List ℕ) (hlen : x.length = num_assets)
    (hbin : ∀ v ∈ x, v = 0 ∨ v = 1) :
    portfolio_value
        (sample_most_likely (exactGroundVec mu sigma q budget penalty offset num_assets))
        mu sigma q budget penalty
      ≤ portfolio_value x mu sigma q budget penalty := by
  rw [sample_most_likely_exactGroundVec]
  have hx : binVal x < 2 ^ num_assets := by
    have := binVal_lt hbin
    rwa [hlen] at this
  have hle := groundIndex_le mu sigma q budget penalty offset num_assets hx
  simp only [energyOf] at hle
  have hsel : selectionOf (binVal x) num_assets = x := by
    conv_lhs => rw [← hlen]
    exact selectionOf_binVal hbin
  rw [hsel] at hle
  linarith

/-- Witness for C1: `num_assets = 2`, `mu = [1, 0]`, `sigma = 0`,
`q = 1`, `budget = 1`, `penalty = 10`, `offset = 0`, compared against the
selection `[0, 1]`. -/
theorem claim_C1_witness :
    1 ≤ 2 ∧ ([0, 1] : List ℕ).length = 2 ∧ (∀ v ∈ ([0, 1] : List ℕ), v = 0 ∨ v = 1) ∧
      portfolio_value
          (sample_most_likely (exactGroundVec [1, 0] [[0, 0], [0, 0]] 1 1 10 0 2))
          [1, 0] [[0, 0], [0, 0]] 1 1 10
        ≤ portfolio_value [0, 1] [1, 0] [[0, 0], [0, 0]] 1 1 10 :=
  ⟨by norm_num, by norm_num, by decide,
    claim_C1 [1, 0] [[0, 0], [0, 0]] 1 1 10 0 2 (by norm_num) [0, 1] (by norm_num)
      (by decide)⟩

/-! ## Claim C2 -/

/-- C2: for every `num_assets ≥ 1` and every `i < 2 ^ num_assets`,
`index_to_selection i num_assets` returns a vector of length `num_assets`
with every entry in `{0, 1}` whose little-endian binary value
`∑ j, x[j] * 2 ^ j` equals `i` (the `rjust` space padding reads as `0`). -/
theorem claim_C2 (num_assets i : ℕ) (_h1 : 1 ≤ num_assets)
    (h2 : i < 2 ^ num_assets) :
    ∃ x, index_to_selection i num_assets = some x ∧ x.length = num_assets ∧
      (∀ v ∈ x, v = 0 ∨ v = 1) ∧
      ∑ j ∈ Finset.range num_assets, x.getD j 0 * 2 ^ j = i := by
  refine ⟨selectionOf i num_assets, index_to_selection_eq_selectionOf h2,
    selectionOf_length i num_assets, selectionOf_binary, ?_⟩
  have hcong : ∀ j ∈ Finset.range num_assets,
      (selectionOf i num_assets).getD j 0 * 2 ^ j = i / 2 ^ j % 2 * 2 ^ j := by
    intro j hj
    rw [selectionOf_getD (Finset.mem_range.mp hj)]
  rw [Finset.sum_congr rfl hcong, sum_bits_eq_mod, Nat.mod_eq_of_lt h2]

/-- Witness for C2 at `num_assets = 4`, `i = 5`. -/
theorem claim_C2_witness :
    1 ≤ 4 ∧ 5 < 2 ^ 4 ∧
      (∃ x, index_to_selection 5 4 = some x ∧ x.length = 4 ∧
        (∀ v ∈ x, v = 0 ∨ v = 1) ∧
        ∑ j ∈ Finset.range 4, x.getD j 0 * 2 ^ j = 5) :=
  ⟨by norm_num, by norm_num, claim_C2 4 5 (by norm_num) (by norm_num)⟩

/-! ## Claim C10 -/

/-- C10: for every `num_assets ≥ 1` and every `i` — including
`i ≥ 2 ^ num_assets` — `index_to_selection i num_assets` terminates
without raising (no index is out of range, since the `rjust` result has
length at least `num_assets`) and returns a vector of length exactly
`num_assets` whose entries are all in `{0, 1}`. -/
theorem claim_C10 (num_assets i : ℕ) (_h1 : 1 ≤ num_assets) :
    ∃ x, index_to_selection i num_assets = some x ∧ x.length = num_assets ∧
      ∀ v ∈ x, v = 0 ∨ v = 1 := by
  rw [index_to_selection_eq_map]
  refine ⟨_, rfl, by simp, ?_⟩
  intro v hv
  simp only [List.mem_map] at hv
  obtain ⟨k, _, rfl⟩ := hv
  split_ifs <;> simp

/-- Witness for C10 at `num_assets = 4`, `i = 100 ≥ 2 ^ 4`. -/
theorem claim_C10_witness :
    1 ≤ 4 ∧ (∃ x, index_to_selection 100 4 = some x ∧ x.length = 4 ∧
      ∀ v ∈ x, v = 0 ∨ v = 1) :=
  ⟨by norm_num, claim_C10 4 100 (by norm_num)⟩

/-! ## Claim C6 -/

/-- C6: when `eigvecs[0]` is a state vector of dimension `2 ^ num_assets`,
the "Full result" table of `print_result` — whose rows run over
`i_sorted = reversed(np.argsort(probabilities))` — lists each of the
`2 ^ num_assets` binary selections exactly once (the traversed indices are
a permutation of `0, ..., 2 ^ num_assets - 1`, the printed selections have
no duplicate, and every binary selection vector occurs), ordered by
non-increasing probability `|eigvecs[0][i]|²`. -/
theorem claim_C6 (eigvec0 : List (ℚ × ℚ)) (num_assets : ℕ)
    (hv : eigvec0.length = 2 ^ num_assets) :
    ((argsort (probabilities eigvec0)).reverse).Perm (List.range (2 ^ num_assets)) ∧
    (((argsort (probabilities eigvec0)).reverse).map
        (fun i => index_to_selection i num_assets)).Nodup ∧
    (∀ x : List ℕ, x.length = num_assets → (∀ v ∈ x, v = 0 ∨ v = 1) →
      some x ∈ ((argsort (probabilities eigvec0)).reverse).map
        (fun i => index_to_selection i num_assets)) ∧
    (((argsort (probabilities eigvec0)).reverse).map
        (fun i => (probabilities eigvec0).getD i 0)).Sorted (fun a b => b ≤ a) := by
  have hplen : (probabilities eigvec0).length = 2 ^ num_assets := by
    rw [probabilities_length, hv]
  have hperm : ((argsort (probabilities eigvec0)).reverse).Perm
      (List.range (2 ^ num_assets)) := by
    have h1 := argsort_perm (probabilities eigvec0)
    rw [hplen] at h1
    exact (List.reverse_perm _).trans h1
  have hmemlt : ∀ i ∈ (argsort (probabilities eigvec0)).reverse, i < 2 ^ num_assets := by
    intro i hi
    exact List.mem_range.mp (hperm.mem_iff.mp hi)
  refine ⟨hperm, ?_, ?_, ?_⟩
  · -- no selection is printed twice
    refine List.Nodup.map_on ?_ (hperm.symm.nodup (List.nodup_range _))
    intro i hi i' hi' hii'
    have h1 : i < 2 ^ num_assets := hmemlt i hi
    have h2 : i' < 2 ^ num_assets := hmemlt i' hi'
    rw [index_to_selection_eq_selectionOf h1, index_to_selection_eq_selectionOf h2] at hii'
    exact selectionOf_inj h1 h2 (Option.some_injective _ hii')
  · -- every binary selection is printed
    intro x hxlen hxbin
    have hxlt : binVal x < 2 ^ num_assets := by
      have := binVal_lt hxbin
      rwa [hxlen] at this
    refine List.mem_map.mpr ⟨binVal x, ?_, ?_⟩
    · exact hperm.symm.mem_iff.mp (List.mem_range.mpr hxlt)
    · rw [index_to_selection_eq_selectionOf hxlt]
      congr 1
      conv_lhs => rw [← hxlen]
      exact selectionOf_binVal hxbin
  · -- probabilities are non-increasing along the printed order
    rw [List.Sorted, List.pairwise_map, List.pairwise_reverse]
    exact argsort_pairwise (probabilities eigvec0)

/-- Witness for C6: a dimension-2 state vector (`num_assets = 1`). -/
theorem claim_C6_witness :
    ([((1 : ℚ), (0 : ℚ)), ((0 : ℚ), (0 : ℚ))].length = 2 ^ 1) ∧
      ((argsort (probabilities [((1 : ℚ), (0 : ℚ)), ((0 : ℚ), (0 : ℚ))])).reverse).Perm
        (List.range (2 ^ 1)) :=
  ⟨by norm_num, (claim_C6 [((1 : ℚ), (0 : ℚ)), ((0 : ℚ), (0 : ℚ))] 1 (by norm_num)).1⟩

/-! ## Claim C7 -/

/-- C7: the output of `print_result` is fixed.  Its first line is
`Optimal: selection {...}, value {...}` with the value formatted to four
decimal places; after the two "Full result" banner lines come the header
`selection\tvalue\t\tprobability` and its dashed underline; then exactly
one row per selection (one for each index of `i_sorted`, i.e.
`2 ^ num_assets` rows), each row giving the selection vector (right-
justified to width 10), its `portfolio_value` to four decimal places and
its probability to four decimal places. -/
theorem claim_C7 (mu : List ℚ) (sigma : List (List ℚ)) (q : ℚ) (budget : ℕ)
    (penalty : ℚ) (num_assets : ℕ) (eigvec0 : List (ℚ × ℚ))
    (hv : eigvec0.length = 2 ^ num_assets) :
    print_result_lines mu sigma q budget penalty num_assets eigvec0 =
      some (("Optimal: selection " ++ npVecRepr (sample_most_likely eigvec0) ++
          ", value " ++ format4 (portfolio_value (sample_most_likely eigvec0)
            mu sigma q budget penalty))
        :: ""
        :: "----------------- Full result ---------------------"
        :: "selection\tvalue\t\tprobability"
        :: "---------------------------------------------------"
        :: ((argsort (probabilities eigvec0)).reverse).map (fun i =>
            rjustStr (npVecRepr (selectionOf i num_assets)) 10 ++ "\t" ++
              format4 (portfolio_value (selectionOf i num_assets)
                mu sigma q budget penalty) ++ "\t\t" ++
              format4 ((probabilities eigvec0).getD i 0))) ∧
    (((argsort (probabilities eigvec0)).reverse).map (fun i =>
        rjustStr (npVecRepr (selectionOf i num_assets)) 10 ++ "\t" ++
          format4 (portfolio_value (selectionOf i num_assets)
            mu sigma q budget penalty) ++ "\t\t" ++
          format4 ((probabilities eigvec0).getD i 0))).length = 2 ^ num_assets := by
  have hplen : (probabilities eigvec0).length = 2 ^ num_assets := by
    rw [probabilities_length, hv]
  have hmemlt : ∀ i ∈ (argsort (probabilities eigvec0)).reverse,
      i < 2 ^ num_assets := by
    intro i hi
    rw [List.mem_reverse] at hi
    have := (argsort_perm (probabilities eigvec0)).mem_iff.mp hi
    rw [hplen] at this
    exact List.mem_range.mp this
  have hrows := mapM_eq_some_of
    (fullResultRow mu sigma q budget penalty num_assets (probabilities eigvec0))
    (fun i =>
      rjustStr (npVecRepr (selectionOf i num_assets)) 10 ++ "\t" ++
        format4 (portfolio_value (selectionOf i num_assets)
          mu sigma q budget penalty) ++ "\t\t" ++
        format4 ((probabilities eigvec0).getD i 0))
    ((argsort (probabilities eigvec0)).reverse)
    (by
      intro i hi
      rw [fullResultRow, index_to_selection_eq_selectionOf (hmemlt i hi)]
      rfl)
  constructor
  · simp only [print_result_lines, hrows]
    rfl
  · rw [List.length_map, List.length_reverse, argsort, List.length_mergeSort,
      List.length_range, hplen]

/-- Witness for C7: the two-dimensional basis state `e₀` with
`num_assets = 1`, `mu = [1]`, `sigma = [[1]]`, `q = 1`, `budget = 1`,
`penalty = 2`; the table has `2 ^ 1` rows. -/
theorem claim_C7_witness :
    ([((1 : ℚ), (0 : ℚ)), ((0 : ℚ), (0 : ℚ))].length = 2 ^ 1) ∧
      (((argsort (probabilities [((1 : ℚ), (0 : ℚ)), ((0 : ℚ), (0 : ℚ))])).reverse).map
        (fun i =>
          rjustStr (npVecRepr (selectionOf i 1)) 10 ++ "\t" ++
            format4 (portfolio_value (selectionOf i 1) [1] [[1]] 1 1 2) ++ "\t\t" ++
            format4 ((probabilities [((1 : ℚ), (0 : ℚ)), ((0 : ℚ), (0 : ℚ))]).getD i 0))).length
        = 2 ^ 1 :=
  ⟨by norm_num,
    (claim_C7 [1] [[1]] 1 1 2 1 [((1 : ℚ), (0 : ℚ)), ((0 : ℚ), (0 : ℚ))] (by norm_num)).2⟩

/-! ## Claim C3 -/

/-- C3: the notebook imports exactly the three ground-state algorithm
classes `VQE`, `QAOA`, `ExactEigensolver` from the library's algorithms
module; each is instantiated exactly once — `ExactEigensolver` with
arguments `(qubitOp, k=1)` — and each on the same operator variable
`qubitOp`, which is assigned exactly once, from the single
`portfolio.get_operator` call; each of the three instances is `run`. -/
theorem claim_C3 :
    importedFrom "qiskit.aqua.algorithms" notebook =
        [["VQE", "QAOA", "ExactEigensolver"]] ∧
      callArgsIn "ExactEigensolver" (stmtExprsList notebook) =
        [[PyExpr.pyvar "qubitOp", PyExpr.kw "k" (PyExpr.intL 1)]] ∧
      callArgsIn "VQE" (stmtExprsList notebook) =
        [[PyExpr.pyvar "qubitOp", PyExpr.pyvar "ry", PyExpr.pyvar "cobyla"]] ∧
      callArgsIn "QAOA" (stmtExprsList notebook) =
        [[PyExpr.pyvar "qubitOp", PyExpr.pyvar "cobyla", PyExpr.intL 3]] ∧
      (methArgsIn "portfolio" "get_operator" (stmtExprsList notebook)).length = 1 ∧
      stmtAssignsToList "qubitOp" notebook =
        [PyExpr.meth (PyExpr.pyvar "portfolio") "get_operator"
          [PyExpr.pyvar "mu", PyExpr.pyvar "sigma", PyExpr.pyvar "q",
           PyExpr.pyvar "budget", PyExpr.pyvar "penalty"]] ∧
      methArgsIn "exact_eigensolver" "run" (stmtExprsList notebook) = [[]] ∧
      methArgsIn "vqe" "run" (stmtExprsList notebook) =
        [[PyExpr.pyvar "quantum_instance"]] ∧
      methArgsIn "qaoa" "run" (stmtExprsList notebook) =
        [[PyExpr.pyvar "quantum_instance"]] :=
  ⟨rfl, rfl, rfl, rfl, rfl, rfl, rfl, rfl, rfl⟩

/-! ## Claim C4 -/

/-- C4: the Hamiltonian operator is built by a single
`portfolio.get_operator` call taking exactly the five arguments
`(mu, sigma, q, budget, penalty)`, and every `portfolio.portfolio_value`
call inside `print_result` applies, after the selection argument, exactly
those same five parameters. -/
theorem claim_C4 :
    methArgsIn "portfolio" "get_operator" (stmtExprsList notebook) =
        [[PyExpr.pyvar "mu", PyExpr.pyvar "sigma", PyExpr.pyvar "q",
          PyExpr.pyvar "budget", PyExpr.pyvar "penalty"]] ∧
      (methArgsIn "portfolio" "portfolio_value" (stmtExprsList notebook)).map
          List.tail =
        [[PyExpr.pyvar "mu", PyExpr.pyvar "sigma", PyExpr.pyvar "q",
          PyExpr.pyvar "budget", PyExpr.pyvar "penalty"],
         [PyExpr.pyvar "mu", PyExpr.pyvar "sigma", PyExpr.pyvar "q",
          PyExpr.pyvar "budget", PyExpr.pyvar "penalty"]] ∧
      (methArgsIn "portfolio" "portfolio_value" (stmtExprsList notebook)).map
          List.head? =
        [some (PyExpr.pyvar "selection"), some (PyExpr.pyvar "x")] :=
  ⟨rfl, rfl, rfl⟩

/-! ## Claim C5 -/

/-- C5: `mu` and `sigma` are each assigned exactly once, from
`data.get_period_return_mean_vector()` and
`data.get_period_return_covariance_matrix()` respectively, where `data` is
assigned exactly once, from the library's synthetic
`RandomDataProvider(tickers=stocks, start=..., end=...)`, on which
`data.run()` is invoked; `RandomDataProvider` is the only name imported
from the library's data-provider module, so no real financial data enters
the computation. -/
theorem claim_C5 :
    stmtAssignsToList "mu" notebook =
        [PyExpr.meth (PyExpr.pyvar "data") "get_period_return_mean_vector" []] ∧
      stmtAssignsToList "sigma" notebook =
        [PyExpr.meth (PyExpr.pyvar "data") "get_period_return_covariance_matrix" []] ∧
      stmtAssignsToList "data" notebook =
        [PyExpr.call "RandomDataProvider"
          [PyExpr.kw "tickers" (PyExpr.pyvar "stocks"),
           PyExpr.kw "start" (PyExpr.meth (PyExpr.pyvar "datetime") "datetime"
             [PyExpr.intL 2016, PyExpr.intL 1, PyExpr.intL 1]),
           PyExpr.kw "end" (PyExpr.meth (PyExpr.pyvar "datetime") "datetime"
             [PyExpr.intL 2016, PyExpr.intL 1, PyExpr.intL 30])]] ∧
      methArgsIn "data" "run" (stmtExprsList notebook) = [[]] ∧
      importedFrom "qiskit.finance.data_providers" notebook =
        [["RandomDataProvider"]] :=
  ⟨rfl, rfl, rfl, rfl, rfl⟩

/-! ## Claim C9 -/

/-- C9: the problem instance fixes `num_assets = 4`,
`budget = int(num_assets / 2)` — which evaluates to `2` — and
`penalty = num_assets`; the variables `budget` and `penalty` are the
constants passed (in the last two positions) to both
`portfolio.get_operator` and every `portfolio.portfolio_value` call. -/
theorem claim_C9 :
    stmtAssignsToList "num_assets" notebook = [PyExpr.intL 4] ∧
      stmtAssignsToList "budget" notebook =
        [PyExpr.call "int" [PyExpr.binApp "/" (PyExpr.pyvar "num_assets") (PyExpr.intL 2)]] ∧
      stmtAssignsToList "penalty" notebook = [PyExpr.pyvar "num_assets"] ∧
      pyInt ((4 : ℚ) / 2) = 2 ∧
      (methArgsIn "portfolio" "get_operator" (stmtExprsList notebook)).map
          (fun args => args.drop 3) =
        [[PyExpr.pyvar "budget", PyExpr.pyvar "penalty"]] ∧
      (methArgsIn "portfolio" "portfolio_value" (stmtExprsList notebook)).map
          (fun args => args.drop 4) =
        [[PyExpr.pyvar "budget", PyExpr.pyvar "penalty"],
         [PyExpr.pyvar "budget", PyExpr.pyvar "penalty"]] :=
  ⟨rfl, rfl, rfl, by norm_num [pyInt], rfl, rfl⟩

/-! ## Claim C8 -/

/-- Running a concatenation is running the parts in sequence: the first
error aborts everything that follows. -/
theorem runL_append (O : Oracle) :
    ∀ (ss₁ : List PyStmt) (ρ : PyEnv) (ss₂ : List PyStmt),
      runL O ρ (ss₁ ++ ss₂) = (runL O ρ ss₁).bind (fun ρ' => runL O ρ' ss₂)
  | [], ρ, ss₂ => rfl
  | s :: ss₁, ρ, ss₂ => by
    simp only [List.cons_append, runL]
    cases runS O ρ s with
    | error e => rfl
    | ok ρ' => simpa using runL_append O ss₁ ρ' ss₂

/-- C8: the notebook performs no error handling of its own: no statement
anywhere in it (function bodies and loop bodies included) is a
`try`/`except`; running a statement sequence propagates the first error
and discards nothing silently (`runL_append`); and in particular when the
wrapped library raises, the notebook run fails with exactly that
exception — unchanged, with no repaired or defaulted state. -/
theorem claim_C8 :
    stmtsHaveTry notebook = false ∧
      (∀ (O : Oracle) (ss₁ : List PyStmt) (ρ : PyEnv) (ss₂ : List PyStmt),
        runL O ρ (ss₁ ++ ss₂) = (runL O ρ ss₁).bind (fun ρ' => runL O ρ' ss₂)) ∧
      (∀ (err : String) (ρ : PyEnv),
        runL (fun _ _ => Except.error err) ρ notebook = Except.error err) :=
  ⟨rfl, runL_append, fun _ _ => rfl⟩

end PortfolioNB
